import Mathlib

/-!
# Verification of the simplification/history core of `simplim_back`

This file gives a shallow embedding of the retrieval-augmented simplification
core of the repository — `utils/vector_store.py` (class `VectorStore`) and
`utils/simplify_agent.py` (class `SimplifyAgent`) — and proves or refutes the
specification claims about it.

External collaborators are modelled by their documented behaviour:

* the embedding model (`SentenceTransformer.encode`) is an opaque function
  `String → List Int` carried in the store state (deterministic for a given
  input, as the spec assumes);
* the vector database client (`qdrant_client.QdrantClient`) is modelled by an
  explicit point list plus the documented semantics of its methods:
  - `upsert(collection, points)` inserts a point, *replacing* any existing
    point with the same id, and returns an `UpdateResult` record
    (`operation_id`, `status`) — not the point id, and not a subscriptable
    value;
  - `scroll(collection, scroll_filter, limit)` returns `(points, next_offset)`
    where `points` are the matching points in ascending-id order, capped at
    `limit`, and `limit` defaults to `10` when the caller does not pass one;
  - `search(collection, query_vector, query_filter, limit)` returns the
    matching points ranked by descending similarity score, capped at `limit`;
    the score function (cosine similarity of the collection) is abstracted as
    an opaque `List Int → List Int → Int` carried in the state;
* the LLM engine (`autogen` chat) is an injected function from the prompt to
  an outcome (a reply, or an exception message `str(e)`).

Machine integers are unbounded in Python, so `Int`/`Nat` are used directly.
-/

namespace Simplim

/-! ## Data model: points stored in the `text_simplifications` collection -/

/-- The payload stored with every point, as built in
`VectorStore.store_simplification` (vector_store.py lines 56-61). -/
structure Payload where
  original_text : String
  simplified_text : String
  complexity_level : Int
  user_id : Int
deriving Repr, DecidableEq

/-- A qdrant point: id, embedding vector, payload
(`models.PointStruct`, vector_store.py lines 67-71). -/
structure Point where
  id : Nat
  vector : List Int
  payload : Payload
deriving Repr, DecidableEq

/-- State of the `VectorStore` object: the embedding model, the collection's
similarity function (cosine, fixed at collection creation, vector_store.py
lines 33-44), and the stored points in insertion order. -/
structure VectorStore where
  encode : String → List Int
  score : List Int → List Int → Int
  points : List Point

/-! ## qdrant client model -/

/-- Ascending-id comparison used to model qdrant's scroll order. -/
def idLe (p q : Point) : Prop := p.id ≤ q.id

instance : DecidableRel idLe := fun p q => inferInstanceAs (Decidable (p.id ≤ q.id))

instance : IsTotal Point idLe := ⟨fun p q => Nat.le_total p.id q.id⟩

instance : IsTrans Point idLe := ⟨fun _ _ _ h h2 => Nat.le_trans h h2⟩

/-- Points of the collection in ascending-id order (`scroll` iteration order). -/
def sortById (ps : List Point) : List Point := ps.insertionSort idLe

/-- Models `QdrantClient.scroll(collection_name, scroll_filter, limit)[0]`:
the points matching the filter, in ascending-id order, capped at `limit`.
The client's `limit` parameter defaults to `10` when the caller omits it. -/
def scrollPoints (vs : VectorStore) (filt : Point → Bool) (limit : Nat) : List Point :=
  ((sortById vs.points).filter filt).take limit

/-- Models `QdrantClient.upsert` point semantics: a point whose id already
exists is overwritten in place, otherwise the point is appended. -/
def listUpsert (ps : List Point) (p : Point) : List Point :=
  if ps.any (fun q => q.id == p.id) then
    ps.map (fun q => if q.id == p.id then p else q)
  else ps ++ [p]

/-- The value actually returned by `QdrantClient.upsert`: an acknowledgment
record with `operation_id` and `status` fields.  It does not carry the point
id and does not support subscripting. -/
structure UpdateResult where
  operation_id : Nat
  status : String
deriving Repr, DecidableEq

/-- Python exceptions raised inside the vector-store layer. -/
inductive PyError where
  /-- `TypeError`, e.g. subscripting a non-subscriptable object. -/
  | typeError (msg : String)
  /-- `IndexError`, e.g. `[0]` on an empty list. -/
  | indexError (msg : String)
deriving Repr, DecidableEq

/-- `str(e)` for the modelled exceptions. -/
def PyError.str : PyError → String
  | .typeError msg => msg
  | .indexError msg => msg

/-! ## `VectorStore` methods -/

/-- Embedding of `VectorStore.store_simplification` (vector_store.py lines
46-75).  The state update: the new point's id is computed as
`len(self.client.scroll(self.collection_name)[0]) + 1` — a scroll with no
filter and the client's default `limit=10` — and the point is upserted.

The returned value: the source does `return point_id[0]` where `point_id` is
the `UpdateResult` returned by `upsert`; an `UpdateResult` is not
subscriptable, so this line raises `TypeError` after the point has already
been written.  The method therefore never returns the new id. -/
def store_simplification (vs : VectorStore) (original_text simplified_text : String)
    (complexity_level user_id : Int) : VectorStore × Except PyError Int :=
  let embedding := vs.encode original_text
  let payload : Payload :=
    { original_text := original_text
      simplified_text := simplified_text
      complexity_level := complexity_level
      user_id := user_id }
  let newId := (scrollPoints vs (fun _ => true) 10).length + 1
  let vs' := { vs with points := listUpsert vs.points ⟨newId, embedding, payload⟩ }
  (vs', Except.error (PyError.typeError "'UpdateResult' object is not subscriptable"))

/-- The point written by a `store_simplification` call (the `PointStruct`
passed to `upsert`). -/
def writtenPoint (vs : VectorStore) (original_text simplified_text : String)
    (complexity_level user_id : Int) : Point :=
  ⟨(scrollPoints vs (fun _ => true) 10).length + 1, vs.encode original_text,
    { original_text := original_text
      simplified_text := simplified_text
      complexity_level := complexity_level
      user_id := user_id }⟩

/-- Descending-score comparison used to model qdrant's search ranking. -/
def scoreGe (x y : Point × Int) : Prop := y.2 ≤ x.2

instance : DecidableRel scoreGe := fun x y => inferInstanceAs (Decidable (y.2 ≤ x.2))

instance : IsTotal (Point × Int) scoreGe := ⟨fun x y => Int.le_total y.2 x.2⟩

instance : IsTrans (Point × Int) scoreGe := ⟨fun _ _ _ h h2 => Int.le_trans h2 h⟩

/-- Models `QdrantClient.search`: the points matching `filt` (the filter is
part of the index query itself — non-matching points are never candidates),
scored against the query vector, ranked by descending score, capped at
`limit`. -/
def searchPoints (vs : VectorStore) (queryVec : List Int) (filt : Point → Bool)
    (limit : Nat) : List (Point × Int) :=
  (((vs.points.filter filt).map (fun p => (p, vs.score queryVec p.vector))).insertionSort
    scoreGe).take limit

/-- The scored hits of `VectorStore.find_similar_simplifications`
(vector_store.py lines 86-98): a search for the embedding of `text` with a
`must`-filter on `user_id`, passed inside the query itself. -/
def searchHits (vs : VectorStore) (text : String) (user_id : Int) (limit : Nat) :
    List (Point × Int) :=
  searchPoints vs (vs.encode text) (fun p => p.payload.user_id == user_id) limit

/-- An element of the list returned by `find_similar_simplifications`
(vector_store.py lines 100-108). -/
structure SimilarDict where
  original_text : String
  simplified_text : String
  complexity_level : Int
  score : Int
deriving Repr, DecidableEq

/-- Embedding of `VectorStore.find_similar_simplifications` (vector_store.py
lines 77-108).  `limit` defaults to 5 as in the source. -/
def find_similar_simplifications (vs : VectorStore) (text : String) (user_id : Int)
    (limit : Nat := 5) : List SimilarDict :=
  (searchHits vs text user_id limit).map (fun h =>
    { original_text := h.1.payload.original_text
      simplified_text := h.1.payload.simplified_text
      complexity_level := h.1.payload.complexity_level
      score := h.2 })

/-- An element of the list returned by `get_simplification_history`
(vector_store.py lines 128-135). -/
structure HistoryDict where
  original_text : String
  simplified_text : String
  complexity_level : Int
deriving Repr, DecidableEq

/-- The points scrolled by `VectorStore.get_simplification_history`
(vector_store.py lines 115-126): a scroll filtered on `user_id` with the
caller's `limit`, in the client's ascending-id order. -/
def scrolledHistory (vs : VectorStore) (user_id : Int) (limit : Nat) : List Point :=
  scrollPoints vs (fun p => p.payload.user_id == user_id) limit

/-- Embedding of `VectorStore.get_simplification_history` (vector_store.py
lines 110-135).  `limit` defaults to 10 as in the source. -/
def get_simplification_history (vs : VectorStore) (user_id : Int)
    (limit : Nat := 10) : List HistoryDict :=
  (scrolledHistory vs user_id limit).map (fun p =>
    { original_text := p.payload.original_text
      simplified_text := p.payload.simplified_text
      complexity_level := p.payload.complexity_level })

/-! ## The rule-based fallback transform (`SimplifyAgent._fallback_simplification`)

simplify_agent.py lines 67-90: a list of `re.sub` calls, each with a pattern
of the shape `\b(?:word|word|...)\b`, flag `re.IGNORECASE`, and a literal
(lower-case) replacement string, applied in order to the text.

The scanner below models `re.sub` for patterns of exactly this shape: it
walks the subject left to right; at every position that is at a word
boundary it tries the alternatives in pattern order (each alternative must be
followed by a word boundary), replaces the leftmost match with the literal
replacement and resumes scanning after the matched span of the *original*
string (replacements are never rescanned), exactly as `re.sub` does.

`\w` (hence `\b`) and `re.IGNORECASE` are modelled over ASCII
(`[A-Za-z0-9_]`); Python's `str` patterns additionally treat non-ASCII word
characters as `\w` and apply Unicode case folding, which none of the rules'
pattern words or replacements contain. -/

/-- ASCII `\w`: letters, digits, underscore. -/
def isWordChar (c : Char) : Bool := c.isAlphanum || c == '_'

/-- The upper-case form of an ASCII letter (identity on everything else). -/
def upperChar (c : Char) : Char := if c.isLower then Char.ofNat (c.toNat - 32) else c

/-- Case-insensitive match of subject char `c` against pattern char `a`
(the pattern chars of the rules are lower-case letters or a space):
models `re.IGNORECASE` over ASCII. -/
def ciMatch (a c : Char) : Bool := c == a || c == upperChar a

/-- Match the pattern word `w` (case-insensitively) against a prefix of `s`;
returns the consumed span (the actual subject characters) and the rest. -/
def stripCI : List Char → List Char → Option (List Char × List Char)
  | [], s => some ([], s)
  | _ :: _, [] => none
  | a :: w, c :: s =>
    if ciMatch a c then (stripCI w s).map (fun pr => (c :: pr.1, pr.2)) else none

/-- The trailing `\b` of a pattern: the next subject char must be a non-word
character (or the subject must end). -/
def boundaryOk : List Char → Bool
  | [] => true
  | c :: _ => !isWordChar c

/-- Try one alternative with its trailing `\b`. -/
def tryAlt (w : List Char) (s : List Char) : Option (List Char × List Char) :=
  match stripCI w s with
  | some (sp, rest) => if boundaryOk rest then some (sp, rest) else none
  | none => none

/-- Try the alternatives in pattern order (re alternation order), returning
the first that matches. -/
def tryAlts : List (List Char) → List Char → Option (List Char × List Char)
  | [], _ => none
  | w :: ws, s =>
    match tryAlt w s with
    | some res => some res
    | none => tryAlts ws s

/-- One substitution rule `(pattern, replacement)` of the fallback list,
with the (source-true) fact that no alternative is empty. -/
structure Rule where
  alts : List (List Char)
  repl : List Char
  alts_nonempty : ∀ w ∈ alts, w ≠ []

/-- The `re.sub` scanner: `prev` records whether the previous subject
character was a word character (so a leading `\b` holds iff `prev = false`,
since every alternative begins with a word character).  After a match,
scanning resumes after the matched span of the original subject, whose last
character is a word character, hence `prev := true`.

The `fuel` argument only makes the recursion structural; every step consumes
at least one subject character, so `s.length` fuel always suffices and the
`fuel = 0` branch is unreachable from `subAux` (see `subFuel_congr`). -/
def subFuel (r : Rule) : Nat → Bool → List Char → List Char
  | _, _, [] => []
  | 0, _, s => s
  | fuel + 1, prev, c :: t =>
    if prev then c :: subFuel r fuel (isWordChar c) t
    else
      match tryAlts r.alts (c :: t) with
      | some (_, rest) => r.repl ++ subFuel r fuel true rest
      | none => c :: subFuel r fuel (isWordChar c) t

/-- The scanner with the fuel fixed to the subject length. -/
def subAux (r : Rule) (prev : Bool) (s : List Char) : List Char :=
  subFuel r s.length prev s

/-- `re.sub(pattern, repl, s, flags=re.IGNORECASE)` for one rule. -/
def applyRule (r : Rule) (s : List Char) : List Char := subAux r false s

def rule1 : Rule := ⟨["is".toList, "are".toList, "was".toList, "were".toList],
  "is".toList, by decide⟩

def rule2 : Rule := ⟨["very".toList, "extremely".toList, "really".toList],
  "".toList, by decide⟩

def rule3 : Rule := ⟨["therefore".toList, "thus".toList, "hence".toList],
  "so".toList, by decide⟩

def rule4 : Rule := ⟨["however".toList, "nevertheless".toList, "nonetheless".toList],
  "but".toList, by decide⟩

def rule5 : Rule := ⟨["utilize".toList, "utilization".toList],
  "use".toList, by decide⟩

def rule6 : Rule := ⟨["commence".toList, "initiate".toList],
  "start".toList, by decide⟩

def rule7 : Rule := ⟨["terminate".toList, "cease".toList],
  "stop".toList, by decide⟩

def rule8 : Rule := ⟨["approximately".toList, "roughly".toList],
  "about".toList, by decide⟩

def rule9 : Rule := ⟨["subsequently".toList, "afterward".toList],
  "then".toList, by decide⟩

def rule10 : Rule := ⟨["prior to".toList, "beforehand".toList],
  "before".toList, by decide⟩

/-- The substitution list of `_fallback_simplification`, in source order
(simplify_agent.py lines 73-84). -/
def fallbackRules : List Rule :=
  [rule1, rule2, rule3, rule4, rule5, rule6, rule7, rule8, rule9, rule10]

/-- The `for pattern, replacement in rules` loop (simplify_agent.py
lines 86-88). -/
def fallbackList (s : List Char) : List Char :=
  fallbackRules.foldl (fun acc r => applyRule r acc) s

/-- Embedding of `SimplifyAgent._fallback_simplification`. -/
def fallbackSimplification (text : String) : String :=
  String.mk (fallbackList text.toList)

/-- The substitution loop over an arbitrary rule list (so that facts about
it can be proved by induction on the list; `fallbackList` is this fold over
`fallbackRules`). -/
def foldRules (rs : List Rule) (s : List Char) : List Char :=
  rs.foldl (fun acc r => applyRule r acc) s

/-! ## The orchestration layer (`SimplifyAgent`, simplify_agent.py)

The autogen chat (`self.user_proxy.initiate_chat(self.assistant, message)`
followed by `chat_result.last_message()["content"]`) is the injected engine:
a function from the outgoing message to either a reply string or a raised
exception's `str(e)`. -/

/-- Outcome of one engine invocation. -/
inductive EngineOutcome where
  | ok (reply : String)
  | err (msg : String)
deriving Repr, DecidableEq

/-- The injected LLM engine. -/
def Engine : Type := String → EngineOutcome

/-- ASCII model of `str.lower` (the exception messages compared against are
ASCII). -/
def lowerChar (c : Char) : Char := if c.isUpper then Char.ofNat (c.toNat + 32) else c

def pyLower (s : String) : String := String.mk (s.toList.map lowerChar)

/-- Python's `needle in hay` on strings (substring containment). -/
def containsSeq (needle : List Char) : List Char → Bool
  | [] => needle.isEmpty
  | c :: t => needle.isPrefixOf (c :: t) || containsSeq needle t

/-- The classification `"service unavailable" in str(e).lower()`
(simplify_agent.py lines 134 and 191). -/
def isServiceUnavailable (msg : String) : Bool :=
  containsSeq "service unavailable".toList (pyLower msg).toList

/-- The `fastapi.HTTPException` raised by the outer handlers
(simplify_agent.py lines 155-159 and 212-216). -/
inductive HttpError where
  | httpException (status_code : Nat) (detail : String)
deriving Repr, DecidableEq

def unavailableDetail (errStr : String) : String :=
  "Service temporarily unavailable. Please try again later. Error: " ++ errStr

/-- The dict returned by `simplify_text` / `handle_follow_up`
(simplify_agent.py lines 148-153 and 205-210). -/
structure SimplifyDict where
  original_text : String
  simplified_text : String
  point_id : Int
  used_fallback : Bool
deriving Repr, DecidableEq

/-- The context block built from similar simplifications (simplify_agent.py
lines 106-111). -/
def buildContext (sims : List SimilarDict) : String :=
  if sims.isEmpty then ""
  else sims.foldl
    (fun acc sim => acc ++ "Original: " ++ sim.original_text ++ "\n" ++
      "Simplified: " ++ sim.simplified_text ++ "\n\n")
    "Previous similar explanations:\n"

/-- The outgoing message of `simplify_text` (simplify_agent.py lines
114-124; the f-string's indentation whitespace is carried verbatim in the
source and abbreviated to single newlines here — it is only ever consumed by
the engine). -/
def simplifyMessage (context text : String) : String :=
  "\n" ++ context ++ "\nPlease simplify this text for better understanding:\n" ++ text ++
    "\n\nProvide a simplified version that:\n1. Maintains the core meaning\n" ++
    "2. Uses simpler language\n3. Includes examples if helpful\n" ++
    "4. Is appropriate for a general audience\n"

/-- The outgoing message of `handle_follow_up` (simplify_agent.py lines
175-181, same whitespace abbreviation). -/
def followUpContext (prev : HistoryDict) (text : String) : String :=
  "\nPrevious explanation:\nOriginal: " ++ prev.original_text ++
    "\nSimplified: " ++ prev.simplified_text ++ "\n\nUser feedback: " ++ text ++ "\n"

/-- Embedding of one attempt of `SimplifyAgent.simplify_text`
(simplify_agent.py lines 92-159), returning the resulting vector-store state
and either the returned dict or the raised `HTTPException`.

Notes kept from the source:
* there is no validation of `text` — an empty or whitespace-only text flows
  into the embedding, the engine and the store like any other;
* on an engine exception whose message contains "service unavailable"
  (case-insensitively) the rule-based fallback output is used; any other
  engine exception is re-raised and caught by the outer handler as a 503;
* `used_fallback` is computed as
  `"service unavailable" in str(e).lower() if 'e' in locals() else False`
  (line 152); Python 3 deletes the `except ... as e` binding when the except
  clause exits, so `'e' in locals()` is False and the expression evaluates to
  `False` on every path that reaches the return — including the fallback
  path;
* `store_simplification` always raises `TypeError` at `return point_id[0]`
  (after writing the point), so the outer handler turns every attempt that
  reaches the store into a 503 — the success branches are kept to mirror the
  source;
* the `tenacity` retry decorator re-runs the whole body up to 3 times when it
  raises; each attempt is modelled individually here. -/
def simplify_text (engine : Engine) (vs : VectorStore) (text : String) (user_id : Int) :
    VectorStore × Except HttpError SimplifyDict :=
  let similar := find_similar_simplifications vs text user_id
  let context := buildContext similar
  let message := simplifyMessage context text
  match engine message with
  | EngineOutcome.ok reply =>
    let res := store_simplification vs text reply 1 user_id
    match res.2 with
    | Except.ok pid =>
      (res.1, Except.ok
        { original_text := text, simplified_text := reply
          point_id := pid, used_fallback := false })
    | Except.error e =>
      (res.1, Except.error (HttpError.httpException 503 (unavailableDetail e.str)))
  | EngineOutcome.err msg =>
    if isServiceUnavailable msg then
      let simplified := fallbackSimplification text
      let res := store_simplification vs text simplified 1 user_id
      match res.2 with
      | Except.ok pid =>
        (res.1, Except.ok
          { original_text := text, simplified_text := simplified
            point_id := pid, used_fallback := false })
      | Except.error e =>
        (res.1, Except.error (HttpError.httpException 503 (unavailableDetail e.str)))
    else
      (vs, Except.error (HttpError.httpException 503 (unavailableDetail msg)))

/-- Embedding of one attempt of `SimplifyAgent.handle_follow_up`
(simplify_agent.py lines 161-216).

Notes kept from the source:
* the `previous_point_id` parameter is bound but never read by the body: the
  "previous simplification" is `get_simplification_history(user_id, limit=1)[0]`,
  i.e. the first element of the user's scroll — the user's *oldest* record in
  the client's ascending-id order — regardless of `previous_point_id`;
* `[0]` on an empty history raises `IndexError`, caught by the outer handler
  as a 503;
* the stored record carries the previous record's `original_text` and
  `complexity_level + 1` (lines 197-203);
* `used_fallback` and the store `TypeError` behave as in `simplify_text`. -/
def handle_follow_up (engine : Engine) (vs : VectorStore) (text : String) (user_id : Int)
    (previous_point_id : Int) : VectorStore × Except HttpError SimplifyDict :=
  match get_simplification_history vs user_id 1 with
  | [] =>
    (vs, Except.error (HttpError.httpException 503 (unavailableDetail "list index out of range")))
  | prev :: _ =>
    let context := followUpContext prev text
    match engine context with
    | EngineOutcome.ok reply =>
      let res := store_simplification vs prev.original_text reply
        (prev.complexity_level + 1) user_id
      match res.2 with
      | Except.ok pid =>
        (res.1, Except.ok
          { original_text := prev.original_text, simplified_text := reply
            point_id := pid, used_fallback := false })
      | Except.error e =>
        (res.1, Except.error (HttpError.httpException 503 (unavailableDetail e.str)))
    | EngineOutcome.err msg =>
      if isServiceUnavailable msg then
        let simplified := fallbackSimplification prev.original_text
        let res := store_simplification vs prev.original_text simplified
          (prev.complexity_level + 1) user_id
        match res.2 with
        | Except.ok pid =>
          (res.1, Except.ok
            { original_text := prev.original_text, simplified_text := simplified
              point_id := pid, used_fallback := false })
        | Except.error e =>
          (res.1, Except.error (HttpError.httpException 503 (unavailableDetail e.str)))
      else
        (vs, Except.error (HttpError.httpException 503 (unavailableDetail msg)))

/-! ## Concrete fixtures for evaluation -/

/-- A concrete embedding function (the model only requires determinism). -/
def encLen : String → List Int := fun s => [(s.length : Int)]

/-- A concrete similarity score. -/
def scoreZero : List Int → List Int → Int := fun _ _ => 0

/-- A fresh store with an empty collection. -/
def vs0 : VectorStore := ⟨encLen, scoreZero, []⟩

/-- An engine whose every call raises an exception classified as
service-unavailable (the forced-failure scenario of the spec). -/
def engineDown : Engine := fun _ => EngineOutcome.err "Service Unavailable"

/-- An engine that always replies. -/
def engineOk : Engine := fun _ => EngineOutcome.ok "plain words"

/-- Twelve successive stores (all for user 1) from the empty collection. -/
def C2state : VectorStore :=
  (["a1", "a2", "a3", "a4", "a5", "a6", "a7", "a8", "a9", "a10", "a11", "a12"]).foldl
    (fun vs t => (store_simplification vs t ("s" ++ t) 1 1).1) vs0

/-- Two records for user 1: point 1 (`"first original"`) then point 2
(`"second original"`). -/
def C5vs : VectorStore :=
  (store_simplification
    (store_simplification vs0 "first original" "simple A" 1 1).1
    "second original" "simple B" 1 1).1

/-- Python's `str.strip()` whitespace characters (ASCII). -/
def isPySpace (c : Char) : Bool :=
  c == ' ' || c == '\t' || c == '\n' || c == '\r' || c == '\x0b' || c == '\x0c'

/-- A collection holding one record of user 1 and one record of user 2. -/
def C1vs : VectorStore := ⟨encLen, scoreZero,
  [⟨1, [7], ⟨"u1 text", "u1 simple", 1, 1⟩⟩,
   ⟨2, [7], ⟨"u2 text", "u2 simple", 1, 2⟩⟩]⟩

/-- Descending-score order on returned results. -/
def scoreDesc (x y : SimilarDict) : Prop := y.score ≤ x.score

/-- Two records of user 1, created in the order: point 1 (`"first text"`),
then point 2 (`"second text"`). -/
def C8vs : VectorStore :=
  (store_simplification
    (store_simplification vs0 "first text" "simple one" 1 1).1
    "second text" "simple two" 1 1).1

/-! ## Notions for the idempotence analysis of the fallback transform -/

/-- A pattern character whose upper-case form is also a word character: any
subject character it matches case-insensitively is itself a word character. -/
def strongWordChar (a : Char) : Bool := isWordChar a && isWordChar (upperChar a)

/-- A pattern word consisting of strong word characters. -/
def wordOnly (w : List Char) : Bool := w.all strongWordChar

/-- Pointwise case-insensitive equality of a pattern word and a subject
span. -/
def ciEqList : List Char → List Char → Bool
  | [], [] => true
  | a :: w, c :: s => ciMatch a c && ciEqList w s
  | _, _ => false

/-- The maximal word-character prefix of a subject (its leading "zone"). -/
def wordPrefix (s : List Char) : List Char := s.takeWhile isWordChar

/-- The subject after its leading zone; empty or starting with a non-word
character. -/
def wordRest (s : List Char) : List Char := s.dropWhile isWordChar

/-- The part of a pattern word before its first space. -/
def firstWord (w : List Char) : List Char := w.takeWhile (fun c => !(c == ' '))

/-- The part of a pattern word after its first space. -/
def sndWord (w : List Char) : List Char := (w.dropWhile (fun c => !(c == ' '))).drop 1

/-- Shape of the rules' alternatives: a single word, or two words joined by
one space (only `prior to`). -/
inductive AltWords : List Char → Prop where
  | single (w : List Char) (h1 : w ≠ []) (h2 : wordOnly w = true) : AltWords w
  | double (w1 w2 : List Char) (h1 : w1 ≠ []) (h2 : w2 ≠ []) (h3 : wordOnly w1 = true)
      (h4 : wordOnly w2 = true) : AltWords (w1 ++ ' ' :: w2)

/-- Every alternative of the rule is well-shaped. -/
def RuleShape (r : Rule) : Prop := ∀ w ∈ r.alts, AltWords w

/-- The replacement is no longer than any alternative (so a substitution
never grows the text) and consists of strong word characters. -/
def GoodRule (r : Rule) : Prop :=
  (∀ w ∈ r.alts, r.repl.length ≤ w.length) ∧ wordOnly r.repl = true

/-- No two-word alternative of the rule can re-match around the rule's own
replacement. -/
def selfSafe (r : Rule) : Bool :=
  r.alts.all (fun w => (firstWord w == w) ||
    (!(ciEqList (firstWord w) r.repl) && !(ciEqList (sndWord w) r.repl)))

/-- Rule `A` (all of whose alternatives are single words) can never match a
zone equal to `B`'s replacement, and `B` can never match a zone equal to
`A`'s replacement. -/
def pairSafe (A B : Rule) : Bool :=
  A.alts.all (fun w => !(ciEqList w B.repl)) &&
  B.alts.all (fun w => !(ciEqList (firstWord w) A.repl)) &&
  A.alts.all (fun w => firstWord w == w)

/-! ## Scanner lemmas -/

theorem stripCI_eq :
    ∀ (w s sp rest : List Char), stripCI w s = some (sp, rest) →
      s = sp ++ rest ∧ sp.length = w.length := by
  intro w
  induction w with
  | nil =>
    intro s sp rest h
    simp only [stripCI, Option.some.injEq, Prod.mk.injEq] at h
    obtain ⟨rfl, rfl⟩ := h
    exact ⟨rfl, rfl⟩
  | cons a w ih =>
    intro s sp rest h
    cases s with
    | nil => simp [stripCI] at h
    | cons c t =>
      simp only [stripCI] at h
      by_cases hm : ciMatch a c = true
      · rw [if_pos hm] at h
        cases hs : stripCI w t with
        | none => rw [hs] at h; simp at h
        | some pr =>
          rw [hs] at h
          simp only [Option.map_some', Option.some.injEq, Prod.mk.injEq] at h
          obtain ⟨hsp, hrest⟩ := h
          obtain ⟨heq, hlen⟩ := ih t pr.1 pr.2 (by rw [hs])
          subst hsp hrest
          constructor
          · simpa using heq
          · simpa using hlen
      · rw [if_neg hm] at h; simp at h

theorem tryAlt_strip {w s sp rest : List Char} (h : tryAlt w s = some (sp, rest)) :
    stripCI w s = some (sp, rest) ∧ boundaryOk rest = true := by
  unfold tryAlt at h
  cases hs : stripCI w s with
  | none => rw [hs] at h; simp at h
  | some pr =>
    obtain ⟨sp2, rest2⟩ := pr
    rw [hs] at h
    dsimp only at h
    split at h
    · next hb =>
        simp only [Option.some.injEq, Prod.mk.injEq] at h
        obtain ⟨rfl, rfl⟩ := h
        exact ⟨rfl, hb⟩
    · simp at h

theorem tryAlts_mem :
    ∀ (alts : List (List Char)) (s sp rest : List Char),
      tryAlts alts s = some (sp, rest) →
      ∃ w ∈ alts, tryAlt w s = some (sp, rest) := by
  intro alts
  induction alts with
  | nil => intro s sp rest h; simp [tryAlts] at h
  | cons w ws ih =>
    intro s sp rest h
    unfold tryAlts at h
    cases hw : tryAlt w s with
    | none =>
      rw [hw] at h
      obtain ⟨v, hv, hvs⟩ := ih s sp rest h
      exact ⟨v, by simp [hv], hvs⟩
    | some res =>
      rw [hw] at h
      simp only [Option.some.injEq] at h
      exact ⟨w, by simp, by rw [hw, h]⟩

theorem tryAlts_length {r : Rule} {s sp rest : List Char}
    (h : tryAlts r.alts s = some (sp, rest)) :
    s = sp ++ rest ∧ 0 < sp.length := by
  obtain ⟨w, hw, hws⟩ := tryAlts_mem r.alts s sp rest h
  obtain ⟨hstrip, _⟩ := tryAlt_strip hws
  obtain ⟨heq, hlen⟩ := stripCI_eq w s sp rest hstrip
  refine ⟨heq, ?_⟩
  rw [hlen]
  have := r.alts_nonempty w hw
  cases w with
  | nil => exact absurd rfl this
  | cons a v => simp

theorem subFuel_congr (r : Rule) :
    ∀ (fuel fuel2 : Nat) (prev : Bool) (s : List Char),
      s.length ≤ fuel → s.length ≤ fuel2 →
      subFuel r fuel prev s = subFuel r fuel2 prev s := by
  intro fuel
  induction fuel with
  | zero =>
    intro fuel2 prev s h _
    cases s with
    | nil => cases fuel2 <;> rfl
    | cons c t => simp at h
  | succ fuel ih =>
    intro fuel2 prev s h h2
    cases s with
    | nil => cases fuel2 <;> rfl
    | cons c t =>
      cases fuel2 with
      | zero => simp at h2
      | succ fuel2 =>
        simp only [List.length_cons] at h h2
        simp only [subFuel]
        by_cases hp : prev
        · rw [if_pos hp, if_pos hp, ih fuel2 _ t (by omega) (by omega)]
        · rw [if_neg hp, if_neg hp]
          cases ht : tryAlts r.alts (c :: t) with
          | some res =>
            obtain ⟨sp, rest⟩ := res
            obtain ⟨heq, hpos⟩ := tryAlts_length (r := r) ht
            have hr : rest.length ≤ t.length := by
              have := congrArg List.length heq
              simp only [List.length_cons, List.length_append] at this
              omega
            dsimp only
            rw [ih fuel2 true rest (by omega) (by omega)]
          | none => rw [ih fuel2 _ t (by omega) (by omega)]

theorem subAux_nil (r : Rule) (prev : Bool) : subAux r prev [] = [] := rfl

theorem subAux_cons_true (r : Rule) (c : Char) (t : List Char) :
    subAux r true (c :: t) = c :: subAux r (isWordChar c) t := rfl

theorem subAux_match {r : Rule} {c : Char} {t sp rest : List Char}
    (h : tryAlts r.alts (c :: t) = some (sp, rest)) :
    subAux r false (c :: t) = r.repl ++ subAux r true rest := by
  obtain ⟨heq, hpos⟩ := tryAlts_length (r := r) h
  have hr : rest.length ≤ t.length := by
    have := congrArg List.length heq
    simp only [List.length_cons, List.length_append] at this
    omega
  show subFuel r (t.length + 1) false (c :: t) = _
  simp only [subFuel, if_neg (Bool.false_ne_true), h]
  rw [subFuel_congr r t.length rest.length true rest hr le_rfl]
  rfl

theorem subAux_nomatch {r : Rule} {c : Char} {t : List Char}
    (h : tryAlts r.alts (c :: t) = none) :
    subAux r false (c :: t) = c :: subAux r (isWordChar c) t := by
  show subFuel r (t.length + 1) false (c :: t) = _
  simp only [subFuel, if_neg (Bool.false_ne_true), h]
  rfl

/-! ## Claims -/

/-- **C7** (code_bug): `store_simplification` persists the full record, but
does not return the newly assigned identifier: `upsert` returns an
`UpdateResult`, and `return point_id[0]` raises `TypeError`, so the caller
never receives the id under which the record is retrievable. -/
theorem C7_store_raises_type_error :
    (store_simplification vs0 "alpha" "beta" 1 1).1.points =
      [⟨1, [5], ⟨"alpha", "beta", 1, 1⟩⟩] ∧
    (store_simplification vs0 "alpha" "beta" 1 1).2 =
      Except.error (PyError.typeError "'UpdateResult' object is not subscriptable") := by
  constructor <;> rfl

/-- **C2** (code_bug): identifiers are not collision-free and stores are not
append-only.  The new id is `len(scroll()[0]) + 1` where the unfiltered
scroll uses the client's default `limit=10`, so from the 12th store on the
computed id is always 11: after 12 stores of distinct texts the collection
holds 11 points, the point with id 11 carries the 12th text, and the 11th
text has been overwritten out of existence. -/
theorem C2_store_id_collision :
    C2state.points.length = 11 ∧
    (C2state.points.filter (fun p => p.id == 11)).map (fun p => p.payload.original_text) =
      ["a12"] ∧
    (∀ p ∈ C2state.points, p.payload.original_text ≠ "a11") := by
  refine ⟨rfl, rfl, ?_⟩
  decide

/-- **C3** (code_bug): when the engine fails on every attempt with a
service-unavailable error, `simplify_text` does not complete with
`used_fallback = true`; the rule-based fallback text is computed and
persisted, but the attempt then raises `HTTPException(503)` (the store's
`return point_id[0]` `TypeError`), so the caller gets an exception, not a
completed result.  (Had the store returned, `used_fallback` would still have
been `False`, because `'e' in locals()` is `False` after the `except` clause
exits.) -/
theorem C3_engine_down_raises_503 :
    (simplify_text engineDown vs0 "This is very complex." 1).2 =
      Except.error (HttpError.httpException 503
        (unavailableDetail "'UpdateResult' object is not subscriptable")) ∧
    (simplify_text engineDown vs0 "This is very complex." 1).1.points.map
        (fun p => p.payload.simplified_text) =
      [fallbackSimplification "This is very complex."] ∧
    fallbackSimplification "This is very complex." = "This is  complex." := by
  refine ⟨rfl, rfl, rfl⟩

/-- **C5** (code_bug): `handle_follow_up` ignores `previous_point_id`
entirely — the result is literally independent of it — and derives the new
record from `get_simplification_history(user_id, limit=1)[0]`, the user's
*oldest* record.  With two records and `previous_point_id = 2`, the new
record (id 3) carries `"first original"` (point 1's text), not point 2's
`"second original"`. -/
theorem C5_previous_point_id_ignored :
    (∀ (engine : Engine) (vs : VectorStore) (text : String) (user_id pid pid2 : Int),
      handle_follow_up engine vs text user_id pid =
        handle_follow_up engine vs text user_id pid2) ∧
    ((handle_follow_up engineOk C5vs "still too technical" 1 2).1.points.filter
        (fun p => p.id == 3)).map (fun p => p.payload.original_text) =
      ["first original"] ∧
    ("first original" : String) ≠ "second original" := by
  refine ⟨fun _ _ _ _ _ _ => rfl, rfl, by decide⟩

/-- **C6** (counterexample): an empty `text` is not rejected: with an engine
that replies `"plain words"`, `simplify_text` on `""` invokes the engine and
persists a record whose `original_text` is `""` — contradicting "no engine
call is made and no record is stored". -/
theorem C6_counterexample :
    (simplify_text engineOk vs0 "" 1).1.points =
      [⟨1, [0], ⟨"", "plain words", 1, 1⟩⟩] := by
  rfl

/-- **C6** (amended): `simplify_text` performs no input validation at all:
for every empty or whitespace-only `text`, the text is embedded, the engine
is invoked (its reply is consumed), and a record with that `original_text`
is persisted; no `ValidationError` is raised — the attempt ends with the
store-layer 503, after the record is written, exactly as for any other
text. -/
theorem C6_no_validation (vs : VectorStore) (text : String) (user_id : Int) (reply : String)
    (h : ∀ c ∈ text.toList, isPySpace c = true) :
    (simplify_text (fun _ => EngineOutcome.ok reply) vs text user_id).1.points =
      listUpsert vs.points (writtenPoint vs text reply 1 user_id) ∧
    (simplify_text (fun _ => EngineOutcome.ok reply) vs text user_id).2 =
      Except.error (HttpError.httpException 503
        (unavailableDetail "'UpdateResult' object is not subscriptable")) := by
  exact ⟨rfl, rfl⟩

theorem C6_no_validation_witness :
    (∀ c ∈ ("  ".toList), isPySpace c = true) ∧
    ((simplify_text (fun _ => EngineOutcome.ok "w") vs0 "  " 1).1.points =
      listUpsert vs0.points (writtenPoint vs0 "  " "w" 1 1) ∧
    (simplify_text (fun _ => EngineOutcome.ok "w") vs0 "  " 1).2 =
      Except.error (HttpError.httpException 503
        (unavailableDetail "'UpdateResult' object is not subscriptable"))) :=
  ⟨by decide, C6_no_validation vs0 "  " 1 "w" (by decide)⟩

/-- **C1** (confirmed): the `user_id` filter is part of the index query
itself (`query_filter` inside `search`; in the model the filter is applied
before any candidate is scored or ranked, never on an unscoped result), so
every hit of `find_similar_simplifications(text, a, limit)` is owned by `a`,
and no record of any other user `b` is ever among the hits, however many
records `b` has. -/
theorem C1_find_similar_user_scoped (vs : VectorStore) (text : String) (a b : Int)
    (limit : Nat) (hab : a ≠ b) :
    ∀ h ∈ searchHits vs text a limit, h.1.payload.user_id = a ∧ h.1.payload.user_id ≠ b := by
  intro h hmem
  have h1 : h.1.payload.user_id = a := by
    unfold searchHits searchPoints at hmem
    have hmem2 := List.mem_of_mem_take hmem
    rw [List.mem_insertionSort] at hmem2
    obtain ⟨p, hp, rfl⟩ := List.mem_map.mp hmem2
    have hf := (List.mem_filter.mp hp).2
    simpa using hf
  exact ⟨h1, fun hb => hab (h1.symm.trans hb)⟩

theorem C1_find_similar_user_scoped_witness :
    (1 : Int) ≠ 2 ∧
    ∀ h ∈ searchHits C1vs "q" 1 5, h.1.payload.user_id = 1 ∧ h.1.payload.user_id ≠ 2 :=
  ⟨by decide, C1_find_similar_user_scoped C1vs "q" 1 2 5 (by decide)⟩

/-- **C9** (confirmed): `find_similar_simplifications` returns at most
`limit` results, ordered by non-increasing similarity score, and returns
`[]` (not an error) when the user owns no records. -/
theorem C9_find_similar_shape (vs : VectorStore) (text : String) (user_id : Int)
    (limit : Nat) :
    (find_similar_simplifications vs text user_id limit).length ≤ limit ∧
    List.Sorted scoreDesc (find_similar_simplifications vs text user_id limit) ∧
    ((∀ p ∈ vs.points, p.payload.user_id ≠ user_id) →
      find_similar_simplifications vs text user_id limit = []) := by
  refine ⟨?_, ?_, ?_⟩
  · unfold find_similar_simplifications
    rw [List.length_map]
    unfold searchHits searchPoints
    rw [List.length_take]
    exact Nat.min_le_left _ _
  · unfold find_similar_simplifications searchHits searchPoints
    have hs : List.Sorted scoreGe
        (((vs.points.filter (fun p => p.payload.user_id == user_id)).map
          (fun p => (p, vs.score (vs.encode text) p.vector))).insertionSort scoreGe) :=
      List.sorted_insertionSort scoreGe _
    exact (hs.sublist (List.take_sublist _ _)).map _ (fun a b hab => hab)
  · intro hno
    unfold find_similar_simplifications searchHits searchPoints
    have hf : vs.points.filter (fun p => p.payload.user_id == user_id) = [] := by
      rw [List.filter_eq_nil_iff]
      intro p hp
      simpa using hno p hp
    rw [hf]
    simp

theorem C9_find_similar_shape_witness :
    (∀ p ∈ vs0.points, p.payload.user_id ≠ (2 : Int)) ∧
    find_similar_simplifications vs0 "anything" 2 5 = [] :=
  ⟨by decide, (C9_find_similar_shape vs0 "anything" 2 5).2.2 (by decide)⟩

/-- **C8** (counterexample): in a collection where user 1's record
`"first text"` was created before `"second text"`, `get_simplification_history`
returns `"first text"` *first* — the scroll iterates in ascending-id
(oldest-first) order, so the output is not ordered most-recent-first. -/
theorem C8_counterexample :
    get_simplification_history C8vs 1 10 =
      [⟨"first text", "simple one", 1⟩, ⟨"second text", "simple two", 1⟩] ∧
    (⟨"first text", "simple one", 1⟩ : HistoryDict) ≠
      ⟨"second text", "simple two", 1⟩ :=
  ⟨rfl, by decide⟩

/-- **C8** (amended): `get_simplification_history(user_id, limit)` returns at
most `limit` records, all owned by `user_id`, ordered *oldest-first*
(ascending point id — the scroll order of the index client); it reads no
mutable state besides the collection, so calling it twice with no
intervening writes trivially yields the same output. -/
theorem C8_history_shape (vs : VectorStore) (user_id : Int) (limit : Nat) :
    (get_simplification_history vs user_id limit).length ≤ limit ∧
    (∀ p ∈ scrolledHistory vs user_id limit, p.payload.user_id = user_id) ∧
    List.Sorted idLe (scrolledHistory vs user_id limit) := by
  refine ⟨?_, ?_, ?_⟩
  · unfold get_simplification_history
    rw [List.length_map]
    unfold scrolledHistory scrollPoints
    rw [List.length_take]
    exact Nat.min_le_left _ _
  · intro p hp
    unfold scrolledHistory scrollPoints at hp
    have hmem := List.mem_of_mem_take hp
    have hf := (List.mem_filter.mp hmem).2
    simpa using hf
  · unfold scrolledHistory scrollPoints sortById
    have hs := List.sorted_insertionSort idLe vs.points
    exact (hs.filter _).sublist (List.take_sublist _ _)

theorem C8_history_shape_witness :
    (get_simplification_history C1vs 1 10).length ≤ 10 ∧
    ∀ p ∈ scrolledHistory C1vs 1 10, p.payload.user_id = 1 :=
  ⟨(C8_history_shape C1vs 1 10).1, (C8_history_shape C1vs 1 10).2.1⟩

/-- **C4** (confirmed): whenever a fresh `simplify_text` attempt persists a
record, that record has `complexity_level = 1` (and carries the request's
text and user); whenever a `handle_follow_up` attempt persists a record,
that record has `complexity_level = previous.complexity_level + 1`, where
`previous` is the record the body derives the follow-up from (the head of
`get_simplification_history(user_id, limit=1)`); attempts that do not reach
the store leave the collection unchanged. -/
theorem C4_complexity_levels :
    (∀ (engine : Engine) (vs : VectorStore) (text : String) (user_id : Int),
      (∃ p, (simplify_text engine vs text user_id).1.points = listUpsert vs.points p ∧
        p.payload.complexity_level = 1 ∧ p.payload.original_text = text ∧
        p.payload.user_id = user_id) ∨
      (simplify_text engine vs text user_id).1 = vs) ∧
    (∀ (engine : Engine) (vs : VectorStore) (text : String) (user_id pid : Int)
      (prev : HistoryDict) (rest : List HistoryDict),
      get_simplification_history vs user_id 1 = prev :: rest →
      (∃ p, (handle_follow_up engine vs text user_id pid).1.points = listUpsert vs.points p ∧
        p.payload.complexity_level = prev.complexity_level + 1 ∧
        p.payload.original_text = prev.original_text ∧
        p.payload.user_id = user_id) ∨
      (handle_follow_up engine vs text user_id pid).1 = vs) := by
  constructor
  · intro engine vs text user_id
    simp only [simplify_text]
    cases he : engine (simplifyMessage
        (buildContext (find_similar_simplifications vs text user_id)) text) with
    | ok reply =>
      left
      exact ⟨writtenPoint vs text reply 1 user_id, rfl, rfl, rfl, rfl⟩
    | err msg =>
      dsimp only
      by_cases hu : isServiceUnavailable msg = true
      · left
        refine ⟨writtenPoint vs text (fallbackSimplification text) 1 user_id, ?_, rfl, rfl, rfl⟩
        rw [if_pos hu]
        rfl
      · right
        rw [if_neg hu]
  · intro engine vs text user_id pid prev rest hh
    simp only [handle_follow_up]
    rw [hh]
    dsimp only
    cases he : engine (followUpContext prev text) with
    | ok reply =>
      left
      exact ⟨writtenPoint vs prev.original_text reply (prev.complexity_level + 1) user_id,
        rfl, rfl, rfl, rfl⟩
    | err msg =>
      dsimp only
      by_cases hu : isServiceUnavailable msg = true
      · left
        refine ⟨writtenPoint vs prev.original_text (fallbackSimplification prev.original_text)
          (prev.complexity_level + 1) user_id, ?_, rfl, rfl, rfl⟩
        rw [if_pos hu]
        rfl
      · right
        rw [if_neg hu]

theorem C4_complexity_levels_witness :
    get_simplification_history C5vs 1 1 = [⟨"first original", "simple A", 1⟩] ∧
    ((∃ p, (handle_follow_up engineOk C5vs "still too technical" 1 2).1.points =
        listUpsert C5vs.points p ∧
      p.payload.complexity_level = (⟨"first original", "simple A", 1⟩ : HistoryDict).complexity_level + 1 ∧
      p.payload.original_text = (⟨"first original", "simple A", 1⟩ : HistoryDict).original_text ∧
      p.payload.user_id = 1) ∨
    (handle_follow_up engineOk C5vs "still too technical" 1 2).1 = C5vs) :=
  ⟨by rfl, C4_complexity_levels.2 engineOk C5vs "still too technical" 1 2
    ⟨"first original", "simple A", 1⟩ [] (by rfl)⟩

/-! ## Character and span lemmas for the fallback analysis -/

theorem upperChar_space : upperChar ' ' = ' ' := by decide

theorem ciMatch_space {c : Char} (h : ciMatch ' ' c = true) : c = ' ' := by
  unfold ciMatch at h
  rw [upperChar_space] at h
  simp only [Bool.or_self, beq_iff_eq] at h
  exact h

theorem ciMatch_word {a c : Char} (ha : strongWordChar a = true)
    (h : ciMatch a c = true) : isWordChar c = true := by
  unfold strongWordChar at ha
  unfold ciMatch at h
  rcases Bool.or_eq_true_iff.mp h with h1 | h1
  · rw [eq_of_beq h1]
    exact (Bool.and_eq_true_iff.mp ha).1
  · rw [eq_of_beq h1]
    exact (Bool.and_eq_true_iff.mp ha).2

theorem ciMatch_nonword {a c : Char} (ha : strongWordChar a = true)
    (hc : isWordChar c = false) : ciMatch a c = false := by
  cases h : ciMatch a c with
  | false => rfl
  | true => rw [ciMatch_word ha h] at hc; cases hc

theorem ciEqList_nil {sp : List Char} (h : ciEqList [] sp = true) : sp = [] := by
  cases sp with
  | nil => rfl
  | cons c t => simp [ciEqList] at h

theorem ciEqList_length :
    ∀ {w sp : List Char}, ciEqList w sp = true → w.length = sp.length := by
  intro w
  induction w with
  | nil => intro sp h; rw [ciEqList_nil h]
  | cons a w ih =>
    intro sp h
    cases sp with
    | nil => simp [ciEqList] at h
    | cons c t =>
      simp only [ciEqList, Bool.and_eq_true_iff] at h
      simp only [List.length_cons, ih h.2]

theorem ciEqList_word :
    ∀ {w sp : List Char}, wordOnly w = true → ciEqList w sp = true →
      ∀ x ∈ sp, isWordChar x = true := by
  intro w
  induction w with
  | nil => intro sp _ h x hx; rw [ciEqList_nil h] at hx; cases hx
  | cons a w ih =>
    intro sp hw h x hx
    cases sp with
    | nil => simp [ciEqList] at h
    | cons c t =>
      simp only [ciEqList, Bool.and_eq_true_iff] at h
      simp only [wordOnly, List.all_cons, Bool.and_eq_true_iff] at hw
      rcases List.mem_cons.mp hx with rfl | hx2
      · exact ciMatch_word hw.1 h.1
      · exact ih (by simpa [wordOnly] using hw.2) h.2 x hx2

theorem stripCI_of_ciEq :
    ∀ {w sp : List Char}, ciEqList w sp = true →
      ∀ rest, stripCI w (sp ++ rest) = some (sp, rest) := by
  intro w
  induction w with
  | nil => intro sp h rest; rw [ciEqList_nil h]; rfl
  | cons a w ih =>
    intro sp h rest
    cases sp with
    | nil => simp [ciEqList] at h
    | cons c t =>
      simp only [ciEqList, Bool.and_eq_true_iff] at h
      simp only [List.cons_append, stripCI, if_pos h.1, List.append_eq, ih h.2 rest,
        Option.map_some']

theorem ciEq_of_stripCI :
    ∀ {w s sp rest : List Char}, stripCI w s = some (sp, rest) →
      ciEqList w sp = true ∧ s = sp ++ rest := by
  intro w
  induction w with
  | nil =>
    intro s sp rest h
    simp only [stripCI, Option.some.injEq, Prod.mk.injEq] at h
    obtain ⟨rfl, rfl⟩ := h
    exact ⟨rfl, rfl⟩
  | cons a w ih =>
    intro s sp rest h
    cases s with
    | nil => simp [stripCI] at h
    | cons c t =>
      simp only [stripCI] at h
      by_cases hm : ciMatch a c = true
      · rw [if_pos hm] at h
        cases hs : stripCI w t with
        | none => rw [hs] at h; simp at h
        | some pr =>
          rw [hs] at h
          simp only [Option.map_some', Option.some.injEq, Prod.mk.injEq] at h
          obtain ⟨h1, rfl⟩ := h
          obtain ⟨hci, heq⟩ := ih hs
          subst h1
          refine ⟨?_, by rw [heq]; rfl⟩
          simp only [ciEqList, Bool.and_eq_true_iff]
          exact ⟨hm, hci⟩
      · rw [if_neg hm] at h; simp at h

theorem ciEqList_append_split :
    ∀ {w1 : List Char} {v sp : List Char}, ciEqList (w1 ++ v) sp = true →
      ∃ sp1 sp2, sp = sp1 ++ sp2 ∧ ciEqList w1 sp1 = true ∧ ciEqList v sp2 = true := by
  intro w1
  induction w1 with
  | nil => intro v sp h; exact ⟨[], sp, rfl, rfl, by simpa using h⟩
  | cons a w ih =>
    intro v sp h
    cases sp with
    | nil => simp [ciEqList] at h
    | cons c t =>
      simp only [List.cons_append, ciEqList, Bool.and_eq_true_iff] at h
      obtain ⟨sp1, sp2, rfl, h1, h2⟩ := ih h.2
      refine ⟨c :: sp1, sp2, rfl, ?_, h2⟩
      simp only [ciEqList, Bool.and_eq_true_iff]
      exact ⟨h.1, h1⟩

theorem ciEqList_append :
    ∀ {w1 sp1 : List Char} {v sp2 : List Char},
      ciEqList w1 sp1 = true → ciEqList v sp2 = true →
      ciEqList (w1 ++ v) (sp1 ++ sp2) = true := by
  intro w1
  induction w1 with
  | nil => intro sp1 v sp2 h1 h2; rw [ciEqList_nil h1]; simpa using h2
  | cons a w ih =>
    intro sp1 v sp2 h1 h2
    cases sp1 with
    | nil => simp [ciEqList] at h1
    | cons c t =>
      simp only [ciEqList, Bool.and_eq_true_iff] at h1
      simp only [List.cons_append, ciEqList, Bool.and_eq_true_iff]
      exact ⟨h1.1, ih h1.2 h2⟩

theorem ciEqList_space_cons {v sp : List Char} (h : ciEqList (' ' :: v) sp = true) :
    ∃ sp2, sp = ' ' :: sp2 ∧ ciEqList v sp2 = true := by
  cases sp with
  | nil => simp [ciEqList] at h
  | cons c t =>
    simp only [ciEqList, Bool.and_eq_true_iff] at h
    exact ⟨t, by rw [ciMatch_space h.1], h.2⟩

/-! ## Zone decomposition lemmas -/

theorem takeWhile_append_eq {p : Char → Bool} :
    ∀ {v u : List Char}, (∀ x ∈ v, p x = true) →
      (∀ z t, u = z :: t → p z = false) →
      (v ++ u).takeWhile p = v ∧ (v ++ u).dropWhile p = u := by
  intro xs
  induction xs with
  | nil =>
    intro u _ hu
    cases u with
    | nil => exact ⟨rfl, rfl⟩
    | cons z t =>
      simp [List.takeWhile, List.dropWhile, hu z t rfl]
  | cons x xs ih =>
    intro u hxs hu
    have hx : p x = true := hxs x (List.mem_cons_self x xs)
    have hxs2 : ∀ y ∈ xs, p y = true := fun y hy => hxs y (List.mem_cons_of_mem x hy)
    obtain ⟨h1, h2⟩ := ih hxs2 hu
    simp only [List.cons_append, List.takeWhile, List.dropWhile, hx, List.append_eq]
    exact ⟨by rw [h1], by rw [h2]⟩

theorem wordSplit (s : List Char) : wordPrefix s ++ wordRest s = s := by
  unfold wordPrefix wordRest
  exact List.takeWhile_append_dropWhile _ _

theorem wordPrefix_all {s : List Char} : ∀ x ∈ wordPrefix s, isWordChar x = true := by
  induction s with
  | nil => intro x hx; cases hx
  | cons c t ih =>
    intro x hx
    unfold wordPrefix List.takeWhile at hx
    cases hc : isWordChar c with
    | false => rw [hc] at hx; cases hx
    | true =>
      rw [hc] at hx
      rcases List.mem_cons.mp hx with rfl | hx2
      · exact hc
      · exact ih x hx2

theorem wordRest_boundary {s : List Char} : boundaryOk (wordRest s) = true := by
  induction s with
  | nil => rfl
  | cons c t ih =>
    unfold wordRest List.dropWhile
    cases hc : isWordChar c with
    | false => simp [boundaryOk, hc]
    | true => exact ih

theorem zone_unique {v u : List Char} (hxs : ∀ x ∈ v, isWordChar x = true)
    (hu : boundaryOk u = true) : wordPrefix (v ++ u) = v ∧ wordRest (v ++ u) = u := by
  refine takeWhile_append_eq hxs ?_
  intro z t hz
  rw [hz] at hu
  simpa [boundaryOk] using hu

theorem strongWordChar_not_space {x : Char} (hx : strongWordChar x = true) :
    (x == ' ') = false := by
  cases hb : x == ' ' with
  | false => rfl
  | true => rw [eq_of_beq hb] at hx; cases hx

theorem firstWord_double {w1 w2 : List Char} (h1 : wordOnly w1 = true) :
    firstWord (w1 ++ ' ' :: w2) = w1 ∧ sndWord (w1 ++ ' ' :: w2) = w2 := by
  have hxs : ∀ x ∈ w1, (!(x == ' ')) = true := by
    intro x hx
    have := strongWordChar_not_space (List.all_eq_true.mp h1 x hx)
    simp [this]
  obtain ⟨ht, hd⟩ := takeWhile_append_eq (p := fun c => !(c == ' '))
    (v := w1) (u := ' ' :: w2) hxs
    (by intro z t hz; injection hz with hz1 hz2; rw [← hz1]; simp)
  refine ⟨ht, ?_⟩
  unfold sndWord
  rw [hd]
  rfl

theorem firstWord_single {w : List Char} (h : wordOnly w = true) : firstWord w = w := by
  unfold firstWord
  induction w with
  | nil => rfl
  | cons x t ih =>
    simp only [wordOnly, List.all_cons, Bool.and_eq_true_iff] at h
    simp only [List.takeWhile, strongWordChar_not_space h.1, Bool.not_false]
    rw [ih (by simpa [wordOnly] using h.2)]

/-! ## Match characterization lemmas -/

theorem tryAlt_some_iff {w s sp rest : List Char} :
    tryAlt w s = some (sp, rest) ↔
      ciEqList w sp = true ∧ s = sp ++ rest ∧ boundaryOk rest = true := by
  constructor
  · intro h
    obtain ⟨hs, hb⟩ := tryAlt_strip h
    obtain ⟨hci, heq⟩ := ciEq_of_stripCI hs
    exact ⟨hci, heq, hb⟩
  · rintro ⟨hci, rfl, hb⟩
    unfold tryAlt
    rw [stripCI_of_ciEq hci rest]
    dsimp only
    rw [if_pos hb]

theorem tryAlts_none_iff {alts : List (List Char)} {s : List Char} :
    tryAlts alts s = none ↔ ∀ w ∈ alts, tryAlt w s = none := by
  induction alts with
  | nil => simp [tryAlts]
  | cons w ws ih =>
    unfold tryAlts
    cases hw : tryAlt w s with
    | some res =>
      simp only [List.mem_cons]
      constructor
      · intro h; cases h
      · intro h
        rw [h w (Or.inl rfl)] at hw
        cases hw
    | none =>
      rw [ih]
      constructor
      · intro h v hv
        rcases List.mem_cons.mp hv with rfl | hv2
        · exact hw
        · exact h v hv2
      · intro h v hv
        exact h v (List.mem_cons_of_mem w hv)

theorem tryAlt_single_span {w s sp rest : List Char} (hw : wordOnly w = true)
    (h : tryAlt w s = some (sp, rest)) :
    sp = wordPrefix s ∧ rest = wordRest s ∧ ciEqList w (wordPrefix s) = true := by
  obtain ⟨hci, heq, hb⟩ := tryAlt_some_iff.mp h
  have hsp : ∀ x ∈ sp, isWordChar x = true := ciEqList_word hw hci
  obtain ⟨h1, h2⟩ := zone_unique hsp hb
  rw [heq]
  exact ⟨h1.symm, h2.symm, by rw [h1]; exact hci⟩

theorem tryAlt_single_make {w s : List Char} (hci : ciEqList w (wordPrefix s) = true) :
    tryAlt w s = some (wordPrefix s, wordRest s) := by
  apply tryAlt_some_iff.mpr
  exact ⟨hci, (wordSplit s).symm, wordRest_boundary⟩

theorem tryAlt_double_span {w1 w2 s sp rest : List Char}
    (hw1 : wordOnly w1 = true) (hw2 : wordOnly w2 = true)
    (h : tryAlt (w1 ++ ' ' :: w2) s = some (sp, rest)) :
    ciEqList w1 (wordPrefix s) = true ∧
    ∃ t2, wordRest s = ' ' :: t2 ∧ ciEqList w2 (wordPrefix t2) = true ∧
      sp = wordPrefix s ++ ' ' :: wordPrefix t2 ∧ rest = wordRest t2 := by
  obtain ⟨hci, heq, hb⟩ := tryAlt_some_iff.mp h
  obtain ⟨sp1, sp2, rfl, hci1, hci2⟩ := ciEqList_append_split hci
  obtain ⟨sp3, rfl, hci3⟩ := ciEqList_space_cons hci2
  have hsp1 : ∀ x ∈ sp1, isWordChar x = true := ciEqList_word hw1 hci1
  have hsp3 : ∀ x ∈ sp3, isWordChar x = true := ciEqList_word hw2 hci3
  have heq2 : s = sp1 ++ ' ' :: (sp3 ++ rest) := by
    rw [heq]
    simp
  obtain ⟨hz1, hz2⟩ := zone_unique (u := ' ' :: (sp3 ++ rest)) hsp1 (by rfl)
  rw [heq2, hz1, hz2]
  obtain ⟨hz3, hz4⟩ := zone_unique hsp3 hb
  exact ⟨hci1, sp3 ++ rest, rfl, by rw [hz3]; exact hci3, by rw [hz3], by rw [hz4]⟩

theorem tryAlt_double_make {w1 w2 s t2 : List Char}
    (hci1 : ciEqList w1 (wordPrefix s) = true)
    (hrest : wordRest s = ' ' :: t2)
    (hci2 : ciEqList w2 (wordPrefix t2) = true) :
    tryAlt (w1 ++ ' ' :: w2) s =
      some (wordPrefix s ++ ' ' :: wordPrefix t2, wordRest t2) := by
  apply tryAlt_some_iff.mpr
  refine ⟨?_, ?_, wordRest_boundary⟩
  · have : ciEqList (' ' :: w2) (' ' :: wordPrefix t2) = true := by
      simp only [ciEqList, Bool.and_eq_true_iff]
      exact ⟨by rfl, hci2⟩
    exact ciEqList_append hci1 this
  · have hassoc : (wordPrefix s ++ ' ' :: wordPrefix t2) ++ wordRest t2 =
        wordPrefix s ++ ' ' :: (wordPrefix t2 ++ wordRest t2) := by simp
    rw [hassoc, wordSplit t2, ← hrest, wordSplit s]

theorem AltWords.head_strong {w : List Char} (h : AltWords w) :
    ∃ a w2, w = a :: w2 ∧ strongWordChar a = true := by
  cases h with
  | single w h1 h2 =>
    cases w with
    | nil => exact absurd rfl h1
    | cons a w2 =>
      refine ⟨a, w2, rfl, ?_⟩
      simpa [wordOnly] using (List.all_eq_true.mp h2) a (List.mem_cons_self a w2)
  | double w1 w2 h1 h2 h3 h4 =>
    cases w1 with
    | nil => exact absurd rfl h1
    | cons a v =>
      refine ⟨a, v ++ ' ' :: w2, rfl, ?_⟩
      simpa [wordOnly] using (List.all_eq_true.mp h3) a (List.mem_cons_self a v)

theorem tryAlt_boundary_none {w s : List Char} (h : AltWords w)
    (hb : boundaryOk s = true) : tryAlt w s = none := by
  obtain ⟨a, w2, rfl, ha⟩ := h.head_strong
  unfold tryAlt
  cases s with
  | nil => rfl
  | cons c t =>
    have hc : isWordChar c = false := by simpa [boundaryOk] using hb
    simp only [stripCI, ciMatch_nonword ha hc]
    rfl

theorem tryAlts_boundary_none {r : Rule} {s : List Char} (hr : RuleShape r)
    (hb : boundaryOk s = true) : tryAlts r.alts s = none :=
  tryAlts_none_iff.mpr fun w hw => tryAlt_boundary_none (hr w hw) hb

/-! ## Scanner structure lemmas -/

theorem subAux_nonword {r : Rule} (hr : RuleShape r) {z : Char}
    (hz : isWordChar z = false) (u : List Char) (prev : Bool) :
    subAux r prev (z :: u) = z :: subAux r false u := by
  cases prev with
  | true => rw [subAux_cons_true, hz]
  | false =>
    rw [subAux_nomatch (tryAlts_boundary_none hr (by simpa [boundaryOk] using hz)), hz]

theorem subAux_words {r : Rule} :
    ∀ {xs : List Char}, (∀ x ∈ xs, isWordChar x = true) → ∀ u,
      subAux r true (xs ++ u) = xs ++ subAux r true u := by
  intro xs
  induction xs with
  | nil => intro _ u; rfl
  | cons x xs ih =>
    intro hxs u
    have hx : isWordChar x = true := hxs x (List.mem_cons_self x xs)
    rw [List.cons_append, subAux_cons_true, hx,
      ih (fun y hy => hxs y (List.mem_cons_of_mem x hy)) u, List.cons_append]

theorem subAux_chunk {r : Rule} (hr : RuleShape r) {t : List Char}
    (h : tryAlts r.alts t = none) :
    subAux r false t = wordPrefix t ++ subAux r true (wordRest t) := by
  cases hw : wordPrefix t with
  | nil =>
    cases t with
    | nil => rfl
    | cons c u =>
      have hc : isWordChar c = false := by
        by_contra hcc
        rw [Bool.not_eq_false] at hcc
        unfold wordPrefix List.takeWhile at hw
        rw [hcc] at hw
        cases hw
      have hrest : wordRest (c :: u) = c :: u := by
        unfold wordRest List.dropWhile
        rw [hc]
      rw [subAux_nomatch h, hc, hrest, List.nil_append, subAux_cons_true, hc]
  | cons x xs =>
    have hsplit : t = x :: (xs ++ wordRest t) := by
      conv_lhs => rw [← wordSplit t]
      rw [hw]
      rfl
    have hx : isWordChar x = true := wordPrefix_all x (by rw [hw]; exact List.mem_cons_self x xs)
    have hxs : ∀ y ∈ xs, isWordChar y = true := fun y hy =>
      wordPrefix_all y (by rw [hw]; exact List.mem_cons_of_mem x hy)
    conv_lhs => rw [hsplit]
    rw [subAux_nomatch (by rw [← hsplit]; exact h), hx, subAux_words hxs, List.cons_append]

theorem subAux_head_boundary {r : Rule} {u : List Char} (hb : boundaryOk u = true) :
    boundaryOk (subAux r true u) = true := by
  cases u with
  | nil => rfl
  | cons z t =>
    rw [subAux_cons_true]
    simpa [boundaryOk] using hb

theorem subAux_true_false {r : Rule} (hr : RuleShape r) {u : List Char}
    (hb : boundaryOk u = true) : subAux r true u = subAux r false u := by
  cases u with
  | nil => rfl
  | cons z t =>
    have hz : isWordChar z = false := by simpa [boundaryOk] using hb
    rw [subAux_cons_true, hz, subAux_nonword hr hz]

theorem tryAlts_span {r : Rule} {s sp rest : List Char}
    (h : tryAlts r.alts s = some (sp, rest)) :
    ∃ w ∈ r.alts, s = sp ++ rest ∧ sp.length = w.length ∧ boundaryOk rest = true := by
  obtain ⟨w, hw, hws⟩ := tryAlts_mem r.alts s sp rest h
  obtain ⟨hs, hb⟩ := tryAlt_strip hws
  obtain ⟨heq, hlen⟩ := stripCI_eq w s sp rest hs
  exact ⟨w, hw, heq, hlen, hb⟩

theorem subAux_length_le {r : Rule}
    (hlen : ∀ w ∈ r.alts, r.repl.length ≤ w.length) :
    ∀ (n : Nat) (s : List Char), s.length ≤ n → ∀ prev,
      (subAux r prev s).length ≤ s.length := by
  intro n
  induction n with
  | zero =>
    intro s hs prev
    rw [List.length_eq_zero.mp (Nat.le_zero.mp hs)]
    simp [subAux_nil]
  | succ n ih =>
    intro s hs prev
    cases s with
    | nil => simp [subAux_nil]
    | cons c t =>
      simp only [List.length_cons] at hs
      cases prev with
      | true =>
        rw [subAux_cons_true]
        simp only [List.length_cons]
        exact Nat.succ_le_succ (ih t (by omega) _)
      | false =>
        cases hm : tryAlts r.alts (c :: t) with
        | none =>
          rw [subAux_nomatch hm]
          simp only [List.length_cons]
          exact Nat.succ_le_succ (ih t (by omega) _)
        | some res =>
          obtain ⟨sp, rest⟩ := res
          rw [subAux_match hm]
          obtain ⟨w, hw, heq, hsplen, _⟩ := tryAlts_span hm
          have h1 : r.repl.length ≤ sp.length := by rw [hsplen]; exact hlen w hw
          have h2 : rest.length + sp.length = t.length + 1 := by
            have := congrArg List.length heq
            simp only [List.length_cons, List.length_append] at this
            omega
          have h3 : (subAux r true rest).length ≤ rest.length := by
            have hsp : 0 < sp.length := by
              rw [hsplen]
              cases w with
              | nil => exact absurd rfl (r.alts_nonempty _ hw)
              | cons a v => simp
            exact ih rest (by omega) true
          simp only [List.length_append, List.length_cons]
          omega

/-! ## Fixed-point propagation lemmas -/

theorem strongWordChar_word {a : Char} (h : strongWordChar a = true) :
    isWordChar a = true :=
  (Bool.and_eq_true_iff.mp h).1

theorem wordOnly_word {w : List Char} (h : wordOnly w = true) :
    ∀ x ∈ w, isWordChar x = true :=
  fun x hx => strongWordChar_word (List.all_eq_true.mp h x hx)

/-- In a string left unchanged by the scan, any match must be an identity
match: its span is literally the replacement, and the suffix after it is
itself unchanged by the scan. -/
theorem fixed_match {A : Rule} (hA : GoodRule A) {s sp rest : List Char}
    (hm : tryAlts A.alts s = some (sp, rest))
    (hfix : subAux A false s = s) :
    sp = A.repl ∧ subAux A true rest = rest := by
  obtain ⟨w, hw, heq, hsplen, hbrest⟩ := tryAlts_span hm
  have hspne : 0 < sp.length := by
    rw [hsplen]
    cases w with
    | nil => exact absurd rfl (A.alts_nonempty _ hw)
    | cons a v => simp
  cases s with
  | nil =>
    exfalso
    have := congrArg List.length heq
    simp only [List.length_nil, List.length_append] at this
    omega
  | cons c t =>
    rw [subAux_match hm] at hfix
    rw [heq] at hfix
    rcases List.append_eq_append_iff.mp hfix with ⟨a2, ha1, ha2⟩ | ⟨c2, hc1, hc2⟩
    · cases a2 with
      | nil =>
        simp only [List.nil_append] at ha2
        exact ⟨by simpa using ha1, ha2⟩
      | cons d ds =>
        exfalso
        have hxlen : (subAux A true rest).length ≤ rest.length :=
          subAux_length_le hA.1 rest.length rest le_rfl true
        have := congrArg List.length ha2
        simp only [List.length_append, List.length_cons] at this
        omega
    · cases c2 with
      | nil =>
        simp only [List.nil_append] at hc2
        exact ⟨by simpa using hc1.symm, hc2.symm⟩
      | cons d ds =>
        exfalso
        have hr : A.repl.length ≤ w.length := hA.1 w hw
        have := congrArg List.length hc1
        simp only [List.length_append, List.length_cons] at this
        omega

/-- If a scan from `c` leaves `c :: t` unchanged, the scan of `t` (entering
with the state after `c`) leaves `t` unchanged: an identity match can only
be a literal occurrence of the replacement, whose characters are word
characters. -/
theorem fixed_step {A : Rule} (hA : GoodRule A) {prev : Bool} {c : Char} {t : List Char}
    (h : subAux A prev (c :: t) = c :: t) :
    subAux A (isWordChar c) t = t := by
  cases prev with
  | true =>
    rw [subAux_cons_true] at h
    injection h with h1 h2
  | false =>
    cases hm : tryAlts A.alts (c :: t) with
    | none =>
      rw [subAux_nomatch hm] at h
      injection h with h1 h2
    | some res =>
      obtain ⟨sp, rest⟩ := res
      obtain ⟨hsp, hX⟩ := fixed_match hA hm h
      obtain ⟨w, hw, heq, hsplen, hbrest⟩ := tryAlts_span hm
      rw [hsp] at heq
      cases hrepl : A.repl with
      | nil =>
        exfalso
        rw [hrepl] at hsp
        have : w.length = 0 := by rw [← hsplen, hsp]; rfl
        have hwnil : w = [] := List.length_eq_zero.mp this
        exact A.alts_nonempty w hw hwnil
      | cons d ds =>
        rw [hrepl] at heq
        simp only [List.cons_append] at heq
        injection heq with heq1 heq2
        have hword : ∀ x ∈ A.repl, isWordChar x = true := wordOnly_word hA.2
        have hd : isWordChar c = true := by
          rw [heq1]
          exact hword d (by rw [hrepl]; exact List.mem_cons_self d ds)
        have hds : ∀ x ∈ ds, isWordChar x = true := fun x hx =>
          hword x (by rw [hrepl]; exact List.mem_cons_of_mem d hx)
        rw [hd, heq2, subAux_words hds, hX]

theorem afix_drop {A : Rule} (hA : GoodRule A) (hsh : RuleShape A) :
    ∀ (pre : List Char) {z : Char} {t : List Char} {prev : Bool},
      isWordChar z = false → subAux A prev (pre ++ z :: t) = pre ++ z :: t →
      subAux A false t = t := by
  intro pre
  induction pre with
  | nil =>
    intro z t prev hz h
    rw [List.nil_append, subAux_nonword hsh hz t prev] at h
    injection h with h1 h2
  | cons c pre ih =>
    intro z t prev hz h
    rw [List.cons_append] at h
    exact ih hz (fixed_step hA h)

/-! ## Side-condition accessors and further small lemmas -/

theorem wordPrefix_boundary {u : List Char} (hb : boundaryOk u = true) :
    wordPrefix u = [] := by
  cases u with
  | nil => rfl
  | cons z t =>
    have hz : isWordChar z = false := by simpa [boundaryOk] using hb
    unfold wordPrefix List.takeWhile
    rw [hz]

theorem ciEqList_nil_right {w : List Char} (h : w ≠ []) : ciEqList w [] = false := by
  cases w with
  | nil => exact absurd rfl h
  | cons a v => rfl

theorem tryAlts_some_of_alt {alts : List (List Char)} {w s : List Char}
    (hw : w ∈ alts) {res : List Char × List Char} (h : tryAlt w s = some res) :
    ∃ res2, tryAlts alts s = some res2 := by
  cases hm : tryAlts alts s with
  | some res2 => exact ⟨res2, rfl⟩
  | none =>
    rw [tryAlts_none_iff.mp hm w hw] at h
    cases h

theorem AltWords.single_of_firstWord {w : List Char} (h : AltWords w)
    (hf : firstWord w = w) : w ≠ [] ∧ wordOnly w = true := by
  cases h with
  | single w h1 h2 => exact ⟨h1, h2⟩
  | double w1 w2 h1 h2 h3 h4 =>
    exfalso
    rw [(firstWord_double h3).1] at hf
    have := congrArg List.length hf
    simp only [List.length_append, List.length_cons] at this
    omega

theorem AltWords.elim2 {w : List Char} (h : AltWords w) :
    (w ≠ [] ∧ wordOnly w = true) ∨
    ∃ w1 w2, w = w1 ++ ' ' :: w2 ∧ w1 ≠ [] ∧ w2 ≠ [] ∧
      wordOnly w1 = true ∧ wordOnly w2 = true := by
  cases h with
  | single w h1 h2 => exact Or.inl ⟨h1, h2⟩
  | double w1 w2 h1 h2 h3 h4 => exact Or.inr ⟨w1, w2, rfl, h1, h2, h3, h4⟩

theorem selfSafe_spec {r : Rule} (h : selfSafe r = true) {w : List Char}
    (hw : w ∈ r.alts) :
    firstWord w = w ∨
      (ciEqList (firstWord w) r.repl = false ∧ ciEqList (sndWord w) r.repl = false) := by
  have := List.all_eq_true.mp h w hw
  rcases Bool.or_eq_true_iff.mp this with h1 | h1
  · exact Or.inl (eq_of_beq h1)
  · obtain ⟨h2, h3⟩ := Bool.and_eq_true_iff.mp h1
    exact Or.inr ⟨by simpa using h2, by simpa using h3⟩

theorem pairSafe_not_replB {A B : Rule} (h : pairSafe A B = true) {w : List Char}
    (hw : w ∈ A.alts) : ciEqList w B.repl = false := by
  have h1 := (Bool.and_eq_true_iff.mp ((Bool.and_eq_true_iff.mp h).1)).1
  simpa using List.all_eq_true.mp h1 w hw

theorem pairSafe_not_replA {A B : Rule} (h : pairSafe A B = true) {w : List Char}
    (hw : w ∈ B.alts) : ciEqList (firstWord w) A.repl = false := by
  have h1 := (Bool.and_eq_true_iff.mp ((Bool.and_eq_true_iff.mp h).1)).2
  simpa using List.all_eq_true.mp h1 w hw

theorem pairSafe_single {A B : Rule} (h : pairSafe A B = true) {w : List Char}
    (hw : w ∈ A.alts) : firstWord w = w := by
  have h1 := (Bool.and_eq_true_iff.mp h).2
  exact eq_of_beq (List.all_eq_true.mp h1 w hw)

theorem subAux_match_any {r : Rule} {s sp rest : List Char}
    (h : tryAlts r.alts s = some (sp, rest)) :
    subAux r false s = r.repl ++ subAux r true rest := by
  cases s with
  | nil =>
    exfalso
    obtain ⟨w, hw, heq, hsplen, _⟩ := tryAlts_span h
    have hspne : 0 < sp.length := by
      rw [hsplen]
      cases w with
      | nil => exact absurd rfl (r.alts_nonempty _ hw)
      | cons a v => simp
    have := congrArg List.length heq
    simp only [List.length_nil, List.length_append] at this
    omega
  | cons c t => exact subAux_match h

/-- One pass of a rule over a string produces a string that the same rule
leaves unchanged: the only matches remaining in the output are literal
occurrences of the replacement (rule 1), which rewrite to themselves. -/
theorem self_fixed {A : Rule} (hG : GoodRule A) (hS : RuleShape A)
    (hsafe : selfSafe A = true) :
    ∀ (n : Nat) (s : List Char), s.length ≤ n →
      subAux A false (subAux A false s) = subAux A false s := by
  intro n
  induction n with
  | zero =>
    intro s hs
    rw [List.length_eq_zero.mp (Nat.le_zero.mp hs)]
    rfl
  | succ n ih =>
    intro s hs
    cases hm : tryAlts A.alts s with
    | some res =>
      obtain ⟨sp, rest⟩ := res
      obtain ⟨w, hw, heq, hsplen, hbrest⟩ := tryAlts_span hm
      have hspne : 0 < sp.length := by
        rw [hsplen]
        cases w with
        | nil => exact absurd rfl (A.alts_nonempty _ hw)
        | cons a v => simp
      have hrlen : rest.length ≤ n := by
        have h1 := congrArg List.length heq
        simp only [List.length_append] at h1
        omega
      rw [subAux_match_any hm]
      have hMB : subAux A true rest = subAux A false rest := subAux_true_false hS hbrest
      have hbM : boundaryOk (subAux A true rest) = true := subAux_head_boundary hbrest
      by_cases hrepl : A.repl = []
      · rw [hrepl, List.nil_append, hMB]
        exact ih rest hrlen
      · have hreplw : ∀ x ∈ A.repl, isWordChar x = true := wordOnly_word hG.2
        have hzone := zone_unique (v := A.repl) (u := subAux A true rest) hreplw hbM
        cases hm2 : tryAlts A.alts (A.repl ++ subAux A true rest) with
        | none =>
          rw [subAux_chunk hS hm2, hzone.1, hzone.2, subAux_true_false hS hbM, hMB,
            ih rest hrlen]
        | some res2 =>
          obtain ⟨sp2, rest2⟩ := res2
          obtain ⟨w2, hw2, hws2⟩ := tryAlts_mem _ _ _ _ hm2
          have hrest2 : rest2 = subAux A true rest := by
            rcases (hS w2 hw2).elim2 with ⟨hne, hwo⟩ |
              ⟨w1, wB, rfl, hne1, hne2, hwo1, hwo2⟩
            · obtain ⟨_, hr2, _⟩ := tryAlt_single_span hwo hws2
              rw [hr2, hzone.2]
            · exfalso
              obtain ⟨hci1, _⟩ := tryAlt_double_span hwo1 hwo2 hws2
              rw [hzone.1] at hci1
              rcases selfSafe_spec hsafe hw2 with hf | ⟨hf1, hf2⟩
              · rw [(firstWord_double hwo1).1] at hf
                have := congrArg List.length hf
                simp only [List.length_append, List.length_cons] at this
                omega
              · rw [(firstWord_double hwo1).1] at hf1
                rw [hci1] at hf1
                cases hf1
          rw [subAux_match_any hm2, hrest2, subAux_true_false hS hbM, hMB, ih rest hrlen]
    | none =>
      cases hwr : wordRest s with
      | nil =>
        have hfix : subAux A false s = s := by
          rw [subAux_chunk hS hm, hwr]
          show wordPrefix s ++ [] = s
          rw [List.append_nil]
          conv_rhs => rw [← wordSplit s]
          rw [hwr, List.append_nil]
        rw [hfix, hfix]
      | cons z t2 =>
        have hbz : isWordChar z = false := by
          have hb := wordRest_boundary (s := s)
          rw [hwr] at hb
          simpa [boundaryOk] using hb
        have hsplit : s = wordPrefix s ++ z :: t2 := by
          conv_lhs => rw [← wordSplit s]
          rw [hwr]
        have hlen2 : t2.length ≤ n := by
          have h1 := congrArg List.length hsplit
          simp only [List.length_append, List.length_cons] at h1
          omega
        have hchunk : subAux A false s = wordPrefix s ++ z :: subAux A false t2 := by
          rw [subAux_chunk hS hm, hwr, subAux_cons_true, hbz]
        rw [hchunk]
        by_cases hwp : wordPrefix s = []
        · rw [hwp, List.nil_append, subAux_nonword hS hbz, ih t2 hlen2]
        · have hwpw : ∀ y ∈ wordPrefix s, isWordChar y = true := wordPrefix_all
          have hbW : boundaryOk (z :: subAux A false t2) = true := by
            simpa [boundaryOk] using hbz
          have hzone := zone_unique (v := wordPrefix s)
            (u := z :: subAux A false t2) hwpw hbW
          cases hm2 : tryAlts A.alts (wordPrefix s ++ z :: subAux A false t2) with
          | none =>
            rw [subAux_chunk hS hm2, hzone.1, hzone.2, subAux_cons_true, hbz,
              ih t2 hlen2]
          | some res2 =>
            exfalso
            obtain ⟨sp2, rest2⟩ := res2
            obtain ⟨w2, hw2, hws2⟩ := tryAlts_mem _ _ _ _ hm2
            rcases (hS w2 hw2).elim2 with ⟨hne, hwo⟩ |
              ⟨w1, wB, rfl, hne1, hne2, hwo1, hwo2⟩
            · obtain ⟨_, _, hci⟩ := tryAlt_single_span hwo hws2
              rw [hzone.1] at hci
              have hin : tryAlt w2 s = some (wordPrefix s, wordRest s) :=
                tryAlt_single_make hci
              rw [tryAlts_none_iff.mp hm w2 hw2] at hin
              cases hin
            · obtain ⟨hci1, t3, hr3, hci3, _, _⟩ := tryAlt_double_span hwo1 hwo2 hws2
              rw [hzone.1] at hci1
              rw [hzone.2] at hr3
              injection hr3 with hz3 ht3
              cases hm3 : tryAlts A.alts t2 with
              | some res3 =>
                obtain ⟨sp3, rest3⟩ := res3
                obtain ⟨w4, hw4, heq4, hl4, hb4⟩ := tryAlts_span hm3
                have hWt : subAux A false t2 = A.repl ++ subAux A true rest3 :=
                  subAux_match_any hm3
                have hbM3 : boundaryOk (subAux A true rest3) = true :=
                  subAux_head_boundary hb4
                rw [← ht3] at hci3
                rw [hWt] at hci3
                have hzone3 := zone_unique (v := A.repl)
                  (u := subAux A true rest3) (wordOnly_word hG.2) hbM3
                rw [hzone3.1] at hci3
                rcases selfSafe_spec hsafe hw2 with hf | ⟨hf1, hf2⟩
                · rw [(firstWord_double hwo1).1] at hf
                  have := congrArg List.length hf
                  simp only [List.length_append, List.length_cons] at this
                  omega
                · rw [(firstWord_double hwo1).2] at hf2
                  rw [hci3] at hf2
                  cases hf2
              | none =>
                have hWt : subAux A false t2 =
                    wordPrefix t2 ++ subAux A true (wordRest t2) := subAux_chunk hS hm3
                have hbM3 : boundaryOk (subAux A true (wordRest t2)) = true :=
                  subAux_head_boundary wordRest_boundary
                have hzone3 := zone_unique (v := wordPrefix t2)
                  (u := subAux A true (wordRest t2)) wordPrefix_all hbM3
                rw [← ht3, hWt, hzone3.1] at hci3
                have hin : tryAlt (w1 ++ ' ' :: wB) s =
                    some (wordPrefix s ++ ' ' :: wordPrefix t2, wordRest t2) :=
                  tryAlt_double_make hci1 (by rw [hwr, hz3]) hci3
                rw [tryAlts_none_iff.mp hm _ hw2] at hin
                cases hin

/-- A string left unchanged by rule `A` (all of whose alternatives are
single words) is still left unchanged by `A` after rule `B` runs over it:
`B` only removes whole matched spans and inserts its replacement between
word boundaries, and by `pairSafe` no `A`-alternative can match the
inserted replacement. -/
theorem preserve_fixed {A B : Rule} (hGA : GoodRule A) (hSA : RuleShape A)
    (hGB : GoodRule B) (hSB : RuleShape B) (hp : pairSafe A B = true) :
    ∀ (n : Nat) (s : List Char), s.length ≤ n →
      subAux A false s = s →
      subAux A false (subAux B false s) = subAux B false s := by
  intro n
  induction n with
  | zero =>
    intro s hs hfix
    rw [List.length_eq_zero.mp (Nat.le_zero.mp hs)]
    rfl
  | succ n ih =>
    intro s hs hfix
    cases hmB : tryAlts B.alts s with
    | some res =>
      obtain ⟨spB, restB⟩ := res
      obtain ⟨wB0, hwB0, heqB, hlB, hbB⟩ := tryAlts_span hmB
      have hspne : 0 < spB.length := by
        rw [hlB]
        cases wB0 with
        | nil => exact absurd rfl (B.alts_nonempty _ hwB0)
        | cons a v => simp
      rw [subAux_match_any hmB]
      have hbM : boundaryOk (subAux B true restB) = true := subAux_head_boundary hbB
      have hMfix : subAux A false (subAux B true restB) = subAux B true restB := by
        cases hrB : restB with
        | nil => rfl
        | cons z t2 =>
          have hbz : isWordChar z = false := by
            rw [hrB] at hbB
            simpa [boundaryOk] using hbB
          have hsplitB : s = spB ++ z :: t2 := by rw [heqB, hrB]
          have hAfter : subAux A false t2 = t2 :=
            afix_drop hGA hSA spB hbz (by rw [← hsplitB]; exact hfix)
          have hlent2 : t2.length ≤ n := by
            have h1 := congrArg List.length hsplitB
            simp only [List.length_append, List.length_cons] at h1
            omega
          rw [subAux_nonword hSB hbz, subAux_nonword hSA hbz, ih t2 hlent2 hAfter]
      by_cases hrepl : B.repl = []
      · rw [hrepl, List.nil_append]
        exact hMfix
      · have hreplw : ∀ x ∈ B.repl, isWordChar x = true := wordOnly_word hGB.2
        have hzone := zone_unique (v := B.repl) (u := subAux B true restB) hreplw hbM
        cases hmA2 : tryAlts A.alts (B.repl ++ subAux B true restB) with
        | none =>
          rw [subAux_chunk hSA hmA2, hzone.1, hzone.2, subAux_true_false hSA hbM, hMfix]
        | some res2 =>
          exfalso
          obtain ⟨sp2, rest2⟩ := res2
          obtain ⟨w2, hw2, hws2⟩ := tryAlts_mem _ _ _ _ hmA2
          obtain ⟨_, hwo2⟩ := (hSA w2 hw2).single_of_firstWord (pairSafe_single hp hw2)
          obtain ⟨_, _, hci⟩ := tryAlt_single_span hwo2 hws2
          rw [hzone.1] at hci
          rw [pairSafe_not_replB hp hw2] at hci
          cases hci
    | none =>
      rw [subAux_chunk hSB hmB]
      cases hwr : wordRest s with
      | nil =>
        have hout : wordPrefix s ++ subAux B true [] = s := by
          show wordPrefix s ++ [] = s
          rw [List.append_nil]
          conv_rhs => rw [← wordSplit s]
          rw [hwr, List.append_nil]
        rw [hout]
        exact hfix
      | cons z t2 =>
        have hbz : isWordChar z = false := by
          have hb := wordRest_boundary (s := s)
          rw [hwr] at hb
          simpa [boundaryOk] using hb
        have hsplit : s = wordPrefix s ++ z :: t2 := by
          conv_lhs => rw [← wordSplit s]
          rw [hwr]
        have hlen2 : t2.length ≤ n := by
          have h1 := congrArg List.length hsplit
          simp only [List.length_append, List.length_cons] at h1
          omega
        have hAfter : subAux A false t2 = t2 :=
          afix_drop hGA hSA (wordPrefix s) hbz (by rw [← hsplit]; exact hfix)
        have hWtfix : subAux A false (subAux B false t2) = subAux B false t2 :=
          ih t2 hlen2 hAfter
        rw [subAux_cons_true, hbz]
        by_cases hwp : wordPrefix s = []
        · rw [hwp, List.nil_append, subAux_nonword hSA hbz, hWtfix]
        · have hwpw : ∀ y ∈ wordPrefix s, isWordChar y = true := wordPrefix_all
          have hbW : boundaryOk (z :: subAux B false t2) = true := by
            simpa [boundaryOk] using hbz
          have hzone := zone_unique (v := wordPrefix s)
            (u := z :: subAux B false t2) hwpw hbW
          cases hmA2 : tryAlts A.alts (wordPrefix s ++ z :: subAux B false t2) with
          | none =>
            rw [subAux_chunk hSA hmA2, hzone.1, hzone.2, subAux_cons_true, hbz, hWtfix]
          | some res2 =>
            obtain ⟨sp2, rest2⟩ := res2
            obtain ⟨w2, hw2, hws2⟩ := tryAlts_mem _ _ _ _ hmA2
            obtain ⟨_, hwo2⟩ := (hSA w2 hw2).single_of_firstWord (pairSafe_single hp hw2)
            obtain ⟨hsp2, hr2, hci⟩ := tryAlt_single_span hwo2 hws2
            rw [hzone.1] at hci
            -- the input also has an A-match at its start, which must be an
            -- identity match, so the zone is literally A.repl
            have hin : tryAlt w2 s = some (wordPrefix s, wordRest s) :=
              tryAlt_single_make hci
            obtain ⟨resIn, hmIn⟩ := tryAlts_some_of_alt hw2 hin
            obtain ⟨spIn, restIn⟩ := resIn
            obtain ⟨hspIn, _⟩ := fixed_match hGA hmIn hfix
            obtain ⟨wIn, hwIn, hwsIn⟩ := tryAlts_mem _ _ _ _ hmIn
            obtain ⟨_, hwoIn⟩ :=
              (hSA wIn hwIn).single_of_firstWord (pairSafe_single hp hwIn)
            obtain ⟨hspIn2, _, _⟩ := tryAlt_single_span hwoIn hwsIn
            -- wordPrefix s = A.repl
            have hwpA : wordPrefix s = A.repl := by rw [← hspIn2, hspIn]
            rw [subAux_match_any hmA2]
            rw [hr2, hzone.2, subAux_cons_true, hbz, hWtfix, ← hwpA]

/-! ## Assembly: idempotence of the whole substitution pipeline -/

theorem applyRule_self_fixed {r : Rule} (hG : GoodRule r) (hS : RuleShape r)
    (hsafe : selfSafe r = true) (s : List Char) :
    applyRule r (applyRule r s) = applyRule r s :=
  self_fixed hG hS hsafe s.length s le_rfl

theorem applyRule_preserved {A B : Rule} (hGA : GoodRule A) (hSA : RuleShape A)
    (hGB : GoodRule B) (hSB : RuleShape B) (hp : pairSafe A B = true)
    {t : List Char} (h : applyRule A t = t) :
    applyRule A (applyRule B t) = applyRule B t :=
  preserve_fixed hGA hSA hGB hSB hp t.length t le_rfl h

theorem fixed_through_fold {A : Rule} (hGA : GoodRule A) (hSA : RuleShape A) :
    ∀ (rs : List Rule) (t : List Char),
      (∀ b ∈ rs, GoodRule b ∧ RuleShape b ∧ pairSafe A b = true) →
      applyRule A t = t → applyRule A (foldRules rs t) = foldRules rs t := by
  intro rs
  induction rs with
  | nil => intro t _ h; exact h
  | cons b rs ih =>
    intro t hall h
    have hb := hall b (List.mem_cons_self b rs)
    have hstep : applyRule A (applyRule b t) = applyRule b t :=
      applyRule_preserved hGA hSA hb.1 hb.2.1 hb.2.2 h
    exact ih (applyRule b t) (fun c hc => hall c (List.mem_cons_of_mem b hc)) hstep

theorem fold_output_fixed :
    ∀ (rs : List Rule),
      (∀ r ∈ rs, GoodRule r ∧ RuleShape r ∧ selfSafe r = true) →
      rs.Pairwise (fun a b => pairSafe a b = true) →
      ∀ (s : List Char) (r : Rule), r ∈ rs →
        applyRule r (foldRules rs s) = foldRules rs s := by
  intro rs
  induction rs with
  | nil => intro _ _ s r hr; cases hr
  | cons a rs ih =>
    intro hall hpair s r hr
    have hpair2 := List.pairwise_cons.mp hpair
    rcases List.mem_cons.mp hr with rfl | hr2
    · have ha := hall r (List.mem_cons_self r rs)
      have hself : applyRule r (applyRule r s) = applyRule r s :=
        applyRule_self_fixed ha.1 ha.2.1 ha.2.2 s
      exact fixed_through_fold ha.1 ha.2.1 rs (applyRule r s)
        (fun b hb => ⟨(hall b (List.mem_cons_of_mem r hb)).1,
          (hall b (List.mem_cons_of_mem r hb)).2.1, hpair2.1 b hb⟩) hself
    · exact ih (fun r2 h2 => hall r2 (List.mem_cons_of_mem a h2)) hpair2.2
        (applyRule a s) r hr2

theorem fold_of_fixed :
    ∀ (rs : List Rule) (t : List Char),
      (∀ r ∈ rs, applyRule r t = t) → foldRules rs t = t := by
  intro rs
  induction rs with
  | nil => intro t _; rfl
  | cons a rs ih =>
    intro t hall
    show foldRules rs (applyRule a t) = t
    rw [hall a (List.mem_cons_self a rs)]
    exact ih t fun r hr => hall r (List.mem_cons_of_mem a hr)

theorem ruleShape_all : ∀ r ∈ fallbackRules, RuleShape r := by
  intro r hr
  simp only [fallbackRules, List.mem_cons, List.not_mem_nil, or_false] at hr
  rcases hr with rfl | rfl | rfl | rfl | rfl | rfl | rfl | rfl | rfl | rfl
  · intro w hw
    simp only [rule1, List.mem_cons, List.not_mem_nil, or_false] at hw
    rcases hw with rfl | rfl | rfl | rfl
    all_goals exact AltWords.single _ (by decide) (by decide)
  · intro w hw
    simp only [rule2, List.mem_cons, List.not_mem_nil, or_false] at hw
    rcases hw with rfl | rfl | rfl
    all_goals exact AltWords.single _ (by decide) (by decide)
  · intro w hw
    simp only [rule3, List.mem_cons, List.not_mem_nil, or_false] at hw
    rcases hw with rfl | rfl | rfl
    all_goals exact AltWords.single _ (by decide) (by decide)
  · intro w hw
    simp only [rule4, List.mem_cons, List.not_mem_nil, or_false] at hw
    rcases hw with rfl | rfl | rfl
    all_goals exact AltWords.single _ (by decide) (by decide)
  · intro w hw
    simp only [rule5, List.mem_cons, List.not_mem_nil, or_false] at hw
    rcases hw with rfl | rfl
    all_goals exact AltWords.single _ (by decide) (by decide)
  · intro w hw
    simp only [rule6, List.mem_cons, List.not_mem_nil, or_false] at hw
    rcases hw with rfl | rfl
    all_goals exact AltWords.single _ (by decide) (by decide)
  · intro w hw
    simp only [rule7, List.mem_cons, List.not_mem_nil, or_false] at hw
    rcases hw with rfl | rfl
    all_goals exact AltWords.single _ (by decide) (by decide)
  · intro w hw
    simp only [rule8, List.mem_cons, List.not_mem_nil, or_false] at hw
    rcases hw with rfl | rfl
    all_goals exact AltWords.single _ (by decide) (by decide)
  · intro w hw
    simp only [rule9, List.mem_cons, List.not_mem_nil, or_false] at hw
    rcases hw with rfl | rfl
    all_goals exact AltWords.single _ (by decide) (by decide)
  · intro w hw
    simp only [rule10, List.mem_cons, List.not_mem_nil, or_false] at hw
    rcases hw with rfl | rfl
    · have hsplit : "prior to".toList = "prior".toList ++ ' ' :: "to".toList := by decide
      rw [hsplit]
      exact AltWords.double _ _ (by decide) (by decide) (by decide) (by decide)
    · exact AltWords.single _ (by decide) (by decide)

theorem fallbackRules_good :
    ∀ r ∈ fallbackRules, GoodRule r ∧ RuleShape r ∧ selfSafe r = true := by
  intro r hr
  refine ⟨?_, ruleShape_all r hr, ?_⟩
  · constructor
    · revert hr
      simp only [fallbackRules, List.mem_cons, List.not_mem_nil, or_false]
      rintro (rfl | rfl | rfl | rfl | rfl | rfl | rfl | rfl | rfl | rfl) <;> decide
    · revert hr
      simp only [fallbackRules, List.mem_cons, List.not_mem_nil, or_false]
      rintro (rfl | rfl | rfl | rfl | rfl | rfl | rfl | rfl | rfl | rfl) <;> decide
  · revert hr
    simp only [fallbackRules, List.mem_cons, List.not_mem_nil, or_false]
    rintro (rfl | rfl | rfl | rfl | rfl | rfl | rfl | rfl | rfl | rfl) <;> decide

theorem fallbackRules_pairSafe :
    fallbackRules.Pairwise (fun a b => pairSafe a b = true) := by
  unfold fallbackRules
  refine List.Pairwise.cons ?_ (List.Pairwise.cons ?_ (List.Pairwise.cons ?_
    (List.Pairwise.cons ?_ (List.Pairwise.cons ?_ (List.Pairwise.cons ?_
    (List.Pairwise.cons ?_ (List.Pairwise.cons ?_ (List.Pairwise.cons ?_
    (List.Pairwise.cons ?_ List.Pairwise.nil)))))))))
  all_goals intro b hb
  all_goals simp only [List.mem_cons, List.not_mem_nil, or_false] at hb
  all_goals rcases hb with rfl | rfl | rfl | rfl | rfl | rfl | rfl | rfl | rfl <;> decide

theorem fallbackList_idem (s : List Char) :
    fallbackList (fallbackList s) = fallbackList s := by
  have hfix := fold_output_fixed fallbackRules fallbackRules_good
    fallbackRules_pairSafe s
  exact fold_of_fixed fallbackRules (foldRules fallbackRules s) hfix

/-- **C10** (confirmed): the rule-based fallback transform is idempotent:
applying `_fallback_simplification` twice yields the same string as applying
it once.  The remaining matches in a transformed string are only literal
occurrences of rule 1's replacement `is`, which rewrite to themselves; no
other replacement word (or deletion) produces a match of any rule's
pattern. -/
theorem toList_mk (l : List Char) : (String.mk l).toList = l := rfl

theorem C10_fallback_idempotent (text : String) :
    fallbackSimplification (fallbackSimplification text) = fallbackSimplification text := by
  unfold fallbackSimplification
  rw [toList_mk, fallbackList_idem]

end Simplim
